import Mathlib

/-!
Verification of the dependency manager `depman.py`: the hash store
(`_write_hashes` / `_read_hashes`), the per-node state classifier
(`Node._check_state`), the non-recursive traversal (`_traverse`), the
commit step (`Node._update`) and the dispatch protocol
(`Node._trigger_update` together with the pool completion callback),
modelled as a step relation over run states.

Strings are modelled as lists of characters (`Str`), so that the
comma-separated record format of the store can be reasoned about
character by character.
-/

set_option maxHeartbeats 1000000

instance exceptDecEq {ε α : Type} [DecidableEq ε] [DecidableEq α] :
    DecidableEq (Except ε α) := fun a b =>
  match a, b with
  | .error e, .error f =>
    if h : e = f then .isTrue (by rw [h]) else .isFalse (fun hh => h (Except.error.inj hh))
  | .ok x, .ok y =>
    if h : x = y then .isTrue (by rw [h]) else .isFalse (fun hh => h (Except.ok.inj hh))
  | .error _, .ok _ => .isFalse (fun hh => Except.noConfusion hh)
  | .ok _, .error _ => .isFalse (fun hh => Except.noConfusion hh)

abbrev Str := List Char

/-- Python `value.split(',')` (used by `_read_hashes`, depman.py:163):
splits a character list at every comma; the result always has one more
element than the number of commas, and is never empty. -/
def splitComma : Str → List Str
  | [] => [[]]
  | c :: rest =>
    if c = ',' then [] :: splitComma rest
    else
      match splitComma rest with
      | [] => [[c]]
      | s :: ss => (c :: s) :: ss

/-- The string built by the loop of `_write_hashes` (depman.py:152-153)
after the initial hash: `',' + item[0] + ',' + item[1]` per parent pair. -/
def serTail : List (Str × Str) → Str
  | [] => []
  | p :: ps => ((',' :: p.1) ++ (',' :: p.2)) ++ serTail ps

/-- `_write_hashes`'s record value (depman.py:151-153): the hash followed by
`,parentId,parentHash` for every parent pair, in list order (a left fold,
exactly as the Python loop accumulates into `aux`). -/
def serializeRecord (hsh : Str) (parents : List (Str × Str)) : Str :=
  parents.foldl (fun acc item => (acc ++ (',' :: item.1)) ++ (',' :: item.2)) hsh

/-- Store-level failures: `indexError` models a Python `IndexError`
(out-of-range list access while parsing a record). -/
inductive StoreErr
  | indexError
deriving DecidableEq, Repr

/-- The pair-reading loop of `_read_hashes` (depman.py:166-167):
`for i in range(1, len(aux), 2): parents.append((aux[i], aux[i+1]))`.
A leftover single element means `aux[i+1]` is out of range: `IndexError`. -/
def parsePairs : List Str → Except StoreErr (List (Str × Str))
  | [] => .ok []
  | [_] => .error .indexError
  | a :: b :: rest => (parsePairs rest).map (fun ps => (a, b) :: ps)

/-- Parsing of a stored record by `_read_hashes` (depman.py:163-169):
split on commas, the head is the hash, the tail is read in pairs. -/
def parseRecord (raw : Str) : Except StoreErr (Str × List (Str × Str)) :=
  match splitComma raw with
  | [] => .error .indexError
  | hsh :: rest => (parsePairs rest).map (fun ps => (hsh, ps))

/-- The `dbm` hash table keyed by node id (depman.py:88), modelled as an
association list where the most recent write for a key shadows older ones. -/
abbrev Table := List (Str × Str)

/-- Keyed lookup in the hash table (`nid in hash_table` / `hash_table[nid]`). -/
def tblGet : Table → Str → Option Str
  | [], _ => none
  | kv :: rest, nid => if kv.1 = nid then some kv.2 else tblGet rest nid

/-- `_write_hashes(nid, hsh, parents)` (depman.py:146-155): store the
serialized record under `nid`, overwriting any previous record. -/
def _write_hashes (t : Table) (nid hsh : Str) (parents : List (Str × Str)) : Table :=
  (nid, serializeRecord hsh parents) :: t

/-- `_read_hashes(nid)` (depman.py:157-169): `None` when the key is absent,
otherwise the parsed `(hash, parents)` record; parsing can raise `IndexError`. -/
def _read_hashes (t : Table) (nid : Str) : Except StoreErr (Option (Str × List (Str × Str))) :=
  match tblGet t nid with
  | none => .ok none
  | some raw => (parseRecord raw).map some

/-- The flat list of components contributed by the parent pairs. -/
def flatPairs : List (Str × Str) → List Str
  | [] => []
  | p :: ps => p.1 :: p.2 :: flatPairs ps

/-- The six classification strings returned by `Node._check_state`
(depman.py:383,392,414,421,433,436). -/
inductive NState
  | new | changed | parents_number | parents_order | parents_changed | ok
deriving DecidableEq, Repr

/-- Runtime failures of `_check_state`: the `RuntimeError` raised when a
parent is not updated (depman.py:376-377), an `IndexError` from reading the
store or from indexing `list_parents_prev` past its end (depman.py:418,427),
and the `AttributeError` raised by the malformed debug print at
depman.py:429, where `': _check_state: '. list_parents_now[i][0]` is an
attribute access on a string literal instead of a print argument. -/
inductive CheckErr
  | precondition | store | indexError | debugPrint
deriving DecidableEq, Repr

/-- The module debug flag (depman.py:94). -/
def DEBUG : Bool := true

/-- The data a `Node` reads while classifying itself: its current parents
(by id, `Node.__eq__` compares ids only), every node's current hash
(`Node.hash()`), every node's `_update_done` flag, and the hash table. -/
structure Env where
  parents : Str → List Str
  hash : Str → Str
  updated : Str → Bool
  table : Table

/-- The dependency-order loop of `_check_state` (depman.py:417-421):
`for i in range(len(list_parents_now))`, comparing ids positionally;
returns at the first mismatch; indexing `list_parents_prev[i]` past its
end raises `IndexError`. -/
def orderLoop : List (Str × Str) → List (Str × Str) → Except CheckErr Bool
  | [], _ => .ok false
  | _ :: _, [] => .error .indexError
  | a :: as, b :: bs => if a.1 ≠ b.1 then .ok true else orderLoop as bs

/-- The parent-hash loop of `_check_state` (depman.py:426-430): same index
range, comparing whole pairs; on the first differing pair the debug print
raises `AttributeError` when `DEBUG` is set (depman.py:429), otherwise the
loop only records a flag and keeps going. -/
def hashLoop : List (Str × Str) → List (Str × Str) → Except CheckErr Bool
  | [], _ => .ok false
  | _ :: _, [] => .error .indexError
  | a :: as, b :: bs =>
    if a ≠ b then
      if DEBUG then .error .debugPrint
      else (hashLoop as bs).map (fun _ => true)
    else hashLoop as bs

/-- `list_parents_now` (depman.py:395): the node's current parents paired
with their current hashes, in parents-list order. -/
def listParentsNow (env : Env) (nid : Str) : List (Str × Str) :=
  (env.parents nid).map (fun x => (x, env.hash x))

/-- The `return_flag` computed by the two membership loops of
`_check_state` (depman.py:397-411): some stored parent id is missing from
the current ids, or some current parent id is missing from the stored
ones — a set comparison in both directions. -/
def numberFlag (prev now : List (Str × Str)) : Bool :=
  (prev.map Prod.fst).any (fun item => !((now.map Prod.fst).contains item))
  || (now.map Prod.fst).any (fun item => !((prev.map Prod.fst).contains item))

/-- The part of `_check_state` that runs once a stored record has been
read and parsed (depman.py:388-436): `changed`, then the parents checks. -/
def classifyStored (env : Env) (nid my_hash : Str) (prev : List (Str × Str)) :
    Except CheckErr NState :=
  if env.hash nid ≠ my_hash then .ok .changed
  else if numberFlag prev (listParentsNow env nid) then .ok .parents_number
  else
    match orderLoop (listParentsNow env nid) prev with
    | .error e => .error e
    | .ok true => .ok .parents_order
    | .ok false =>
      match hashLoop (listParentsNow env nid) prev with
      | .error e => .error e
      | .ok true => .ok .parents_changed
      | .ok false => .ok .ok

/-- `Node._check_state` (depman.py:364-436): precondition check on the
parents, the membership test `self.nid not in hash_table` giving `new`,
then `_read_hashes` and the stored-record classification, with the runtime
errors of record parsing, of `orderLoop` and of `hashLoop` surfacing as
exceptions.  The `.ok none` arm is unreachable because the membership test
has already succeeded. -/
def _check_state (env : Env) (nid : Str) : Except CheckErr NState :=
  if !((env.parents nid).all env.updated) then .error .precondition
  else if (tblGet env.table nid).isNone then .ok .new
  else
    match _read_hashes env.table nid with
    | .error _ => .error .store
    | .ok none => .ok .new
    | .ok (some (my_hash, list_parents_prev)) =>
      classifyStored env nid my_hash list_parents_prev

/-- Whether the stored record for `nid`, if any, parses back successfully. -/
def recordParses (t : Table) (nid : Str) : Bool :=
  match _read_hashes t nid with
  | .ok _ => true
  | .error _ => false

/-- Concrete classifier input for the C6 counterexample: the node's current
parents list repeats the same parent id twice while the stored snapshot
holds it once, and nothing else changed. -/
def c6Env : Env :=
  { parents := fun i => if i = ['n'] then [['p'], ['p']] else []
    hash := fun _ => ['h']
    updated := fun _ => true
    table := [(['n'], serializeRecord ['h'] [(['p'], ['h'])])] }

/-- Classifier input for the C6 witness: an unrecorded node. -/
def c6WEnv : Env :=
  { parents := fun _ => []
    hash := fun _ => ['h']
    updated := fun _ => true
    table := [] }

/-- Concrete classifier input for C1: the stored record matches the node's
own hash, parent ids and order, but the parent's hash changed from `1`
to `2`. -/
def c1Env : Env :=
  { parents := fun i => if i = ['n'] then [['p']] else []
    hash := fun i => if i = ['p'] then ['2'] else ['h']
    updated := fun _ => true
    table := [(['n'], serializeRecord ['h'] [(['p'], ['1'])])] }

/-- The argument normalization shared by `update` and `_traverse`
(depman.py:117-118): a single node becomes a one-element list. -/
def toNodeList : Sum Str (List Str) → List Str
  | Sum.inl n => [n]
  | Sum.inr l => l

/-- The `while q:` loop of `_traverse` (depman.py:125-132): pop the front
node, append its parents that are not already queued (the membership test
is evaluated against the popped queue for the whole parents list, so
duplicated parents are appended twice, just as the Python list
comprehension does), then move the popped node to the front of the output
(removing a previous occurrence first).  `fuel` bounds the number of
iterations; `none` means the bound was hit. -/
def travLoop (parents : Str → List Str) : Nat → List Str → List Str → Option (List Str)
  | _, [], trv => some trv
  | 0, _ :: _, _ => none
  | fuel + 1, x :: q, trv =>
    travLoop parents fuel (q ++ (parents x).filter (fun y => !(decide (y ∈ q))))
      (x :: trv.erase x)

/-- `_traverse` (depman.py:110-134): normalize the argument and run the
queue loop starting from the requested nodes with an empty output list. -/
def _traverse (parents : Str → List Str) (nodes : Sum Str (List Str)) (fuel : Nat) :
    Option (List Str) :=
  travLoop parents fuel (toNodeList nodes) []

/-- Python `str(gid)` (depman.py:197): decimal rendering of the counter. -/
def natToStr (n : Nat) : Str := Nat.toDigits 10 n

/-- The id assignment of `Node.__init__` (depman.py:195-198): when `nid`
is `None`, the attribute is set to `str(gid)` and the global counter is
incremented; when a `nid` argument is supplied there is no `else` branch,
so the `nid` attribute is never assigned (modelled as `none`) and the
counter is unchanged.  Returns the node's `nid` attribute and the counter
after construction. -/
def nodeInitNid (gid : Nat) (nidArg : Option Str) : Option Str × Nat :=
  match nidArg with
  | none => (some (natToStr gid), gid + 1)
  | some _ => (none, gid)

/-- The static data of one `update` run: each node's parents (fixed at
construction, depman.py:204), each node's current content hash
(`Node.hash()`, read consistently during the run), and the set of nodes
the update loop drives (`trv`, the traversal result, which is closed
under parents).  Nodes are identified by id, as `Node.__eq__` compares
ids only. -/
structure Sys where
  parents : Str → List Str
  hash : Str → Str
  univ : List Str

/-- The mutable state of an `update` run: the `dbm` table, the log of node
ids written to it during this run, the per-node `_update_done` and
`_payload_delivered` flags, the payloads submitted to the pool and not yet
completed, the payloads that completed reporting failure, and the log of
pool submissions in order. -/
structure RState where
  table : Table
  writes : List Str
  updated : List Str
  delivered : List Str
  pending : List Str
  failed : List Str
  subs : List Str
deriving DecidableEq

/-- The classifier's view of a run state. -/
def envOf (g : Sys) (s : RState) : Env :=
  { parents := g.parents
    hash := g.hash
    updated := fun p => decide (p ∈ s.updated)
    table := s.table }

/-- `all([x._update_done for x in self.parents])` (depman.py:287,352,376). -/
def parentsReady (g : Sys) (s : RState) (n : Str) : Bool :=
  (g.parents n).all (fun p => decide (p ∈ s.updated))

/-- Runtime errors of an update run: the `RuntimeError` of `_update`'s
parent check (depman.py:352-353), an exception escaping `_check_state`,
and the `RuntimeError('Failed to execute payload')` raised by
`_trigger_update` for a failed payload (depman.py:319-321). -/
inductive RunErr
  | updateErr | check (e : CheckErr) | payloadFail
deriving DecidableEq, Repr

/-- The successful effect of `Node._update` (depman.py:348-362): write the
node's hash and the `(parent id, parent hash)` snapshot to the store, then
set `_update_done`. -/
def commitState (g : Sys) (s : RState) (n : Str) : RState :=
  { s with
    table := _write_hashes s.table n (g.hash n)
      ((g.parents n).map (fun x => (x, g.hash x)))
    writes := n :: s.writes
    updated := n :: s.updated }

/-- `Node._update` (depman.py:348-362): raise unless every parent is
updated, otherwise commit. -/
def _update (g : Sys) (s : RState) (n : Str) : Except RunErr RState :=
  if !(parentsReady g s n) then .error .updateErr
  else .ok (commitState g s n)

/-- The state change of `_trigger_update`'s submit branch
(depman.py:304-316): deliver the payload to the pool (recorded in the
submission log and the pending set) and set `_payload_delivered`. -/
def submitState (s : RState) (n : Str) : RState :=
  { s with
    delivered := n :: s.delivered
    pending := n :: s.pending
    subs := s.subs ++ [n] }

/-- The `elif` chain of `_trigger_update` after classification succeeded
(depman.py:294-331): `'ok'` commits directly via `_update`; otherwise
submit the payload once, guarded by `_payload_delivered`; otherwise raise
for a response that is ready and unsuccessful; otherwise fall through
while the response is still in flight (or its callback has not run yet). -/
def triggerBranch (g : Sys) (s : RState) (n : Str) (st : NState) :
    Except RunErr RState :=
  if st = NState.ok then _update g s n
  else if n ∉ s.delivered then .ok (submitState s n)
  else if n ∈ s.failed then .error .payloadFail
  else .ok s

/-- `Node._trigger_update` (depman.py:281-331), one call on node `n`.
When some parent is not updated the Python code recurses into those
parents (depman.py:288); the recursive calls are modelled as separate
`Step.trigger` steps on the parent nodes, and the call on `n` itself
changes nothing.  Otherwise the node is classified and the `elif` chain
of `triggerBranch` runs, with a classification exception propagating. -/
def _trigger_update (g : Sys) (s : RState) (n : Str) : Except RunErr RState :=
  if !(parentsReady g s n) then .ok s
  else
    match _check_state (envOf g s) n with
    | .error e => .error (.check e)
    | .ok st => triggerBranch g s n st

/-- One observable step of an `update` run: the coordinator loop invoking
`_trigger_update` on a not-yet-updated node of the traversal
(depman.py:107-108), or the pool completing a submitted payload and
running `_update_callback` (depman.py:333-346) — on success committing via
`_update`, on failure recording the failed response (the callback's
`RuntimeError` fires in the pool's result-handler thread; the run observes
the failure through `_trigger_update`'s response check).  Interleaving of
steps is unconstrained, over-approximating every pool schedule. -/
inductive Step (g : Sys) : RState → RState → Prop
  | trigger (s s' : RState) (n : Str) :
      n ∈ g.univ → n ∉ s.updated → _trigger_update g s n = .ok s' → Step g s s'
  | completeOk (s s' : RState) (n : Str) :
      n ∈ s.pending →
      _update g { s with pending := s.pending.erase n } n = .ok s' → Step g s s'
  | completeFail (s : RState) (n : Str) :
      n ∈ s.pending →
      Step g s { s with pending := s.pending.erase n, failed := n :: s.failed }

/-- The state at the start of an `update` run: the persisted table from
earlier runs, all flags clear, nothing submitted. -/
def initState (t0 : Table) : RState :=
  { table := t0, writes := [], updated := [], delivered := [], pending := [],
    failed := [], subs := [] }

/-- Run states reachable from the start of an `update` run. -/
def ReachableRun (g : Sys) (t0 : Table) (s : RState) : Prop :=
  Relation.ReflTransGen (Step g) (initState t0) s

/-- Ancestors via the parent relation: `Anc g a n` says `a` is a parent,
grandparent, ... of `n` (equivalently, `n` is a descendant of `a`). -/
inductive Anc (g : Sys) : Str → Str → Prop
  | parent {n p : Str} : p ∈ g.parents n → Anc g p n
  | trans {a b c : Str} : Anc g a b → Anc g b c → Anc g a c

/-- The inductive invariant of an `update` run. -/
structure RunInv (g : Sys) (t0 : Table) (s : RState) : Prop where
  up_writes : ∀ n, n ∈ s.updated ↔ n ∈ s.writes
  deliv_parents : ∀ n, n ∈ s.delivered → ∀ p ∈ g.parents n, p ∈ s.updated
  subs_count : ∀ n, s.subs.count n ≤ 1
  subs_deliv : ∀ n, n ∈ s.subs ↔ n ∈ s.delivered
  pending_deliv : ∀ n, n ∈ s.pending → n ∈ s.delivered
  pending_nodup : s.pending.Nodup
  pending_not_up : ∀ n, n ∈ s.pending → n ∉ s.updated
  failed_deliv : ∀ n, n ∈ s.failed → n ∈ s.delivered
  failed_not_pending : ∀ n, n ∈ s.failed → n ∉ s.pending
  failed_not_up : ∀ n, n ∈ s.failed → n ∉ s.updated
  deliv_check : ∀ n, n ∈ s.delivered → n ∉ s.writes →
    _check_state (envOf g s) n ≠ .ok NState.ok
  up_parents : ∀ n, n ∈ s.updated → ∀ p ∈ g.parents n, p ∈ s.updated
  table_old : ∀ n, n ∉ s.writes → tblGet s.table n = tblGet t0 n

/-- The node's own hash, its parent ids and its parents' hashes contain no
comma (the store's separator character). -/
def commaFree (g : Sys) (n : Str) : Prop :=
  (',' : Char) ∉ g.hash n ∧
    ∀ p ∈ g.parents n, (',' : Char) ∉ p ∧ (',' : Char) ∉ g.hash p

instance commaFreeDec (g : Sys) (n : Str) : Decidable (commaFree g n) := by
  unfold commaFree
  infer_instance

/-- The hash store records, for every node of the run, exactly the node's
current hash and current parent snapshot, comma-free — the situation at
the start of a second `update` run after a successful first one with no
external changes. -/
def goodTable (g : Sys) (t0 : Table) : Prop :=
  ∀ n ∈ g.univ, commaFree g n ∧
    tblGet t0 n = some (serializeRecord (g.hash n)
      ((g.parents n).map (fun x => (x, g.hash x))))

instance goodTableDec (g : Sys) (t0 : Table) : Decidable (goodTable g t0) := by
  unfold goodTable
  infer_instance

/-- A run in which nothing has been submitted, nothing is pending, and
every node of the run still has its up-to-date record in the store. -/
def cleanRun (g : Sys) (s : RState) : Prop :=
  s.subs = [] ∧ s.pending = [] ∧
  ∀ n ∈ g.univ, tblGet s.table n
    = some (serializeRecord (g.hash n) ((g.parents n).map (fun x => (x, g.hash x))))

/-- Two-node witness system: `b` depends on `a`, every hash is `h`. -/
def gW : Sys :=
  { parents := fun i => if i = ['b'] then [['a']] else []
    hash := fun _ => ['h']
    univ := [['a'], ['b']] }

/-- Witness run state: `a` submitted to the pool, nothing else. -/
def wS1 : RState :=
  { table := [], writes := [], updated := [], delivered := [['a']],
    pending := [['a']], failed := [], subs := [['a']] }

/-- Witness run state: `a`'s payload completed successfully and committed. -/
def wS2 : RState :=
  { table := [(['a'], ['h'])], writes := [['a']], updated := [['a']],
    delivered := [['a']], pending := [], failed := [], subs := [['a']] }

/-- Witness run state: after `a` committed, `b` submitted to the pool. -/
def wS3 : RState :=
  { table := [(['a'], ['h'])], writes := [['a']], updated := [['a']],
    delivered := [['b'], ['a']], pending := [['b']], failed := [],
    subs := [['a'], ['b']] }

/-- Witness run state: `a`'s payload completed reporting failure. -/
def wS1f : RState :=
  { table := [], writes := [], updated := [], delivered := [['a']],
    pending := [], failed := [['a']], subs := [['a']] }

/-- One-node witness system for the C3 commit part. -/
def gA : Sys :=
  { parents := fun _ => [], hash := fun _ => ['h'], univ := [] }

/-- The state after `_update` commits node `n` in `gA` from a fresh run. -/
def wA : RState :=
  { table := [(['n'], ['h'])], writes := [['n']], updated := [['n']],
    delivered := [], pending := [], failed := [], subs := [] }

/-- A store matching every node of `gW`: the second-run situation. -/
def t0G : Table :=
  [(['a'], serializeRecord ['h'] []),
   (['b'], serializeRecord ['h'] [(['a'], ['h'])])]

/-- The state after the second run's first trigger on `a`: reclassified as
`ok` and recommitted, with nothing submitted. -/
def wG1 : RState :=
  { table := (['a'], serializeRecord ['h'] []) :: t0G, writes := [['a']],
    updated := [['a']], delivered := [], pending := [], failed := [],
    subs := [] }

/-- One-node system whose hash contains a comma. -/
def gC : Sys :=
  { parents := fun _ => [], hash := fun _ => ['a', ',', 'b'], univ := [] }

/-- `a` occurs strictly before `b` in `l`. -/
def Precedes (l : List Str) (a b : Str) : Prop :=
  ∃ l1 l2, l = l1 ++ a :: l2 ∧ b ∈ l2

/-- Transitive reachability from a seed list via the parent relation: the
nodes `_traverse` is supposed to return. -/
inductive ReachL (parents : Str → List Str) (q : List Str) : Str → Prop
  | base {n : Str} : n ∈ q → ReachL parents q n
  | step {m p : Str} : ReachL parents q m → p ∈ parents m → ReachL parents q p

/-- Termination measure for the traversal loop: each queue entry `x`
weighs `B ^ rank x`, where `rank` strictly decreases from a node to its
parents and `B` exceeds every parents-list length. -/
def wsum (B : Nat) (rank : Str → Nat) (q : List Str) : Nat :=
  (q.map (fun x => B ^ rank x)).sum

/-- Rank function for the C2 witness graph `gW`: the child `b` above its
parent `a`. -/
def rankW : Str → Nat := fun i => if i = ['b'] then 1 else 0

theorem splitComma_no_comma (a : Str) (h : (',' : Char) ∉ a) : splitComma a = [a] := by
  induction a with
  | nil => rfl
  | cons c rest ih =>
    have hc : c ≠ ',' := fun hc => h (hc ▸ List.mem_cons_self c rest)
    have hr : (',' : Char) ∉ rest := fun hm => h (List.mem_cons_of_mem c hm)
    simp [splitComma, hc, ih hr]

theorem splitComma_append_comma (a t : Str) (h : (',' : Char) ∉ a) :
    splitComma (a ++ (',' :: t)) = a :: splitComma t := by
  induction a with
  | nil => simp [splitComma]
  | cons c rest ih =>
    have hc : c ≠ ',' := fun hc => h (hc ▸ List.mem_cons_self c rest)
    have hr : (',' : Char) ∉ rest := fun hm => h (List.mem_cons_of_mem c hm)
    have hih := ih hr
    simp only [List.cons_append, splitComma, if_neg hc]
    rw [show rest.append (',' :: t) = rest ++ (',' :: t) from rfl, hih]

theorem splitComma_serTail (ps : List (Str × Str)) :
    ∀ x : Str, (',' : Char) ∉ x →
      (∀ p ∈ ps, (',' : Char) ∉ p.1 ∧ (',' : Char) ∉ p.2) →
      splitComma (x ++ serTail ps) = x :: flatPairs ps := by
  induction ps with
  | nil =>
    intro x hx _
    simpa [serTail, flatPairs] using splitComma_no_comma x hx
  | cons p ps ih =>
    intro x hx hps
    have hp1 : (',' : Char) ∉ p.1 := (hps p (List.mem_cons_self p ps)).1
    have hp2 : (',' : Char) ∉ p.2 := (hps p (List.mem_cons_self p ps)).2
    have hrest : ∀ q ∈ ps, (',' : Char) ∉ q.1 ∧ (',' : Char) ∉ q.2 :=
      fun q hq => hps q (List.mem_cons_of_mem p hq)
    have e1 : x ++ serTail (p :: ps)
        = x ++ (',' :: (p.1 ++ (',' :: (p.2 ++ serTail ps)))) := by
      simp [serTail, List.append_assoc]
    rw [e1, splitComma_append_comma x _ hx,
        splitComma_append_comma p.1 _ hp1, ih p.2 hp2 hrest]
    rfl

theorem parsePairs_flatPairs (ps : List (Str × Str)) :
    parsePairs (flatPairs ps) = .ok ps := by
  induction ps with
  | nil => rfl
  | cons p ps ih =>
    have e : parsePairs (flatPairs (p :: ps))
        = (parsePairs (flatPairs ps)).map (fun l => (p.1, p.2) :: l) := rfl
    rw [e, ih]
    rfl

theorem serializeRecord_eq (hsh : Str) (ps : List (Str × Str)) :
    serializeRecord hsh ps = hsh ++ serTail ps := by
  suffices h : ∀ acc : Str,
      ps.foldl (fun acc item => (acc ++ (',' :: item.1)) ++ (',' :: item.2)) acc
        = acc ++ serTail ps from h hsh
  induction ps with
  | nil => intro acc; simp [serTail]
  | cons p ps ih =>
    intro acc
    simp only [List.foldl_cons]
    rw [ih]
    simp [serTail, List.append_assoc]

theorem parseRecord_serializeRecord (hsh : Str) (ps : List (Str × Str))
    (hh : (',' : Char) ∉ hsh)
    (hps : ∀ p ∈ ps, (',' : Char) ∉ p.1 ∧ (',' : Char) ∉ p.2) :
    parseRecord (serializeRecord hsh ps) = .ok (hsh, ps) := by
  rw [serializeRecord_eq, parseRecord, splitComma_serTail ps hsh hh hps]
  simp [parsePairs_flatPairs, Except.map]

theorem tblGet_write_self (t : Table) (nid v : Str) :
    tblGet ((nid, v) :: t) nid = some v := by
  simp [tblGet]

theorem tblGet_write_other (t : Table) (nid v m : Str) (h : nid ≠ m) :
    tblGet ((nid, v) :: t) m = tblGet t m := by
  simp [tblGet, h]

/-- C8: writing a record with `_write_hashes` and reading it back with
`_read_hashes` returns exactly the written hash and parent pairs, in the
same order, including duplicate parent ids — provided none of the hash,
the parent ids and the parent hashes contain the comma character that the
store uses as its field separator. -/
theorem c8_read_after_write (t : Table) (nid hsh : Str) (ps : List (Str × Str))
    (hh : (',' : Char) ∉ hsh)
    (hps : ∀ p ∈ ps, (',' : Char) ∉ p.1 ∧ (',' : Char) ∉ p.2) :
    _read_hashes (_write_hashes t nid hsh ps) nid = .ok (some (hsh, ps)) := by
  unfold _write_hashes _read_hashes
  rw [tblGet_write_self]
  show (parseRecord (serializeRecord hsh ps)).map some = _
  rw [parseRecord_serializeRecord hsh ps hh hps]
  rfl

/-- C8 witness: a concrete round trip through the store, with a duplicated
parent pair, evaluates to exactly the written data. -/
theorem c8_read_after_write_witness :
    _read_hashes
        (_write_hashes [] ['n'] ['h'] [(['p'], ['q']), (['p'], ['q'])]) ['n']
      = .ok (some (['h'], [(['p'], ['q']), (['p'], ['q'])])) :=
  c8_read_after_write [] ['n'] ['h'] [(['p'], ['q']), (['p'], ['q'])]
    (by decide) (by decide)

/-- C8 counterexample: for a hash string containing a comma, the read does
not return the written pair — parsing the record even raises `IndexError` —
so the round-trip property as stated for arbitrary strings is false. -/
theorem c8_comma_breaks_roundtrip :
    _read_hashes (_write_hashes [] ['n'] ['a', ',', 'b'] []) ['n']
      ≠ .ok (some (['a', ',', 'b'], [])) := by
  decide

theorem _read_hashes_of_get_some (t : Table) (nid raw : Str)
    (htbl : tblGet t nid = some raw) :
    _read_hashes t nid = (parseRecord raw).map some := by
  unfold _read_hashes
  rw [htbl]

theorem _check_state_eq_new (env : Env) (nid : Str)
    (hpre : (env.parents nid).all env.updated = true)
    (htbl : tblGet env.table nid = none) : _check_state env nid = .ok .new := by
  unfold _check_state
  rw [hpre, htbl]
  rfl

theorem _check_state_eq_store_err (env : Env) (nid raw : Str) (e : StoreErr)
    (hpre : (env.parents nid).all env.updated = true)
    (htbl : tblGet env.table nid = some raw)
    (hp : parseRecord raw = .error e) : _check_state env nid = .error .store := by
  unfold _check_state
  rw [hpre, htbl, _read_hashes_of_get_some env.table nid raw htbl, hp]
  rfl

theorem _check_state_eq_stored (env : Env) (nid raw my_hash : Str)
    (prev : List (Str × Str))
    (hpre : (env.parents nid).all env.updated = true)
    (htbl : tblGet env.table nid = some raw)
    (hp : parseRecord raw = .ok (my_hash, prev)) :
    _check_state env nid = classifyStored env nid my_hash prev := by
  unfold _check_state
  rw [hpre, htbl, _read_hashes_of_get_some env.table nid raw htbl, hp]
  rfl

theorem orderLoop_cases (l1 l2 : List (Str × Str)) :
    orderLoop l1 l2 = .ok true ∨ orderLoop l1 l2 = .ok false ∨
      orderLoop l1 l2 = .error .indexError := by
  induction l1 generalizing l2 with
  | nil => right; left; rfl
  | cons a as ih =>
    cases l2 with
    | nil => right; right; rfl
    | cons b bs =>
      by_cases h : a.1 = b.1
      · simpa [orderLoop, h] using ih bs
      · simp [orderLoop, h]

theorem hashLoop_cases (l1 l2 : List (Str × Str)) :
    hashLoop l1 l2 = .ok false ∨ hashLoop l1 l2 = .error .indexError ∨
      hashLoop l1 l2 = .error .debugPrint := by
  induction l1 generalizing l2 with
  | nil => left; rfl
  | cons a as ih =>
    cases l2 with
    | nil => right; left; rfl
    | cons b bs =>
      by_cases h : a = b
      · simpa [hashLoop, h] using ih bs
      · simp [hashLoop, h, DEBUG]

theorem classifyStored_cases (env : Env) (nid my_hash : Str)
    (prev : List (Str × Str)) :
    classifyStored env nid my_hash prev = .ok .changed ∨
    classifyStored env nid my_hash prev = .ok .parents_number ∨
    classifyStored env nid my_hash prev = .ok .parents_order ∨
    classifyStored env nid my_hash prev = .ok .ok ∨
    classifyStored env nid my_hash prev = .error .indexError ∨
    classifyStored env nid my_hash prev = .error .debugPrint := by
  unfold classifyStored
  rcases eq_or_ne (env.hash nid) my_hash with hchg | hchg
  · rw [if_neg (by simp [hchg])]
    cases hflag : numberFlag prev (listParentsNow env nid)
    · rw [if_neg (by simp [hflag])]
      rcases orderLoop_cases (listParentsNow env nid) prev with ho | ho | ho <;> rw [ho]
      · right; right; left; rfl
      · rcases hashLoop_cases (listParentsNow env nid) prev with hh | hh | hh <;> rw [hh]
        · right; right; right; left; rfl
        · right; right; right; right; left; rfl
        · right; right; right; right; right; rfl
      · right; right; right; right; left; rfl
    · rw [if_pos (by simp [hflag])]
      right; left; rfl
  · rw [if_pos hchg]
    left; rfl

theorem recordParses_eq_false (t : Table) (nid raw : Str) (e : StoreErr)
    (htbl : tblGet t nid = some raw) (hp : parseRecord raw = .error e) :
    recordParses t nid = false := by
  unfold recordParses
  rw [_read_hashes_of_get_some t nid raw htbl, hp]
  rfl

/-- C6 (amended): for a node whose parents are all marked updated and whose
stored record (if any) parses, `_check_state` either returns one of the five
strings `new`, `changed`, `parents_number`, `parents_order`, `ok`, or raises:
an `IndexError` (id sets equal but the current parents list longer than the
stored snapshot, depman.py:417-418), or the `AttributeError` of the broken
debug print in the `parents_changed` case (depman.py:429). The claim's
promise that one of the six strings is always returned and no error can
occur is false. -/
theorem c6_check_state_outcomes (env : Env) (nid : Str)
    (hpre : (env.parents nid).all env.updated = true)
    (hrec : recordParses env.table nid = true) :
    _check_state env nid = .ok .new ∨
    _check_state env nid = .ok .changed ∨
    _check_state env nid = .ok .parents_number ∨
    _check_state env nid = .ok .parents_order ∨
    _check_state env nid = .ok .ok ∨
    _check_state env nid = .error .indexError ∨
    _check_state env nid = .error .debugPrint := by
  cases htbl : tblGet env.table nid with
  | none => exact Or.inl (_check_state_eq_new env nid hpre htbl)
  | some raw =>
    cases hp : parseRecord raw with
    | error e =>
      rw [recordParses_eq_false env.table nid raw e htbl hp] at hrec
      exact absurd hrec (by simp)
    | ok r =>
      obtain ⟨my_hash, prev⟩ := r
      rw [_check_state_eq_stored env nid raw my_hash prev hpre htbl hp]
      rcases classifyStored_cases env nid my_hash prev with h | h | h | h | h | h <;>
        rw [h] <;> simp

/-- C6 counterexample: all parents are updated, yet `_check_state` raises
`IndexError` (depman.py:418 indexes `list_parents_prev[1]` which does not
exist) instead of returning one of the six strings. -/
theorem c6_duplicate_parent_index_error :
    (c6Env.parents ['n']).all c6Env.updated = true ∧
      _check_state c6Env ['n'] = .error .indexError := by
  decide

/-- C6 witness: the amended outcome enumeration holds at a concrete input
(an unrecorded node classifies as `new`). -/
theorem c6_check_state_outcomes_witness :
    _check_state c6WEnv ['n'] = .ok .new ∨
    _check_state c6WEnv ['n'] = .ok .changed ∨
    _check_state c6WEnv ['n'] = .ok .parents_number ∨
    _check_state c6WEnv ['n'] = .ok .parents_order ∨
    _check_state c6WEnv ['n'] = .ok .ok ∨
    _check_state c6WEnv ['n'] = .error .indexError ∨
    _check_state c6WEnv ['n'] = .error .debugPrint :=
  c6_check_state_outcomes c6WEnv ['n'] (by decide) (by decide)

/-- C1 (code bug evaluation): on the exact input the claim maps to
`parents_changed` — same ids, same order, one parent hash differing —
`_check_state` does not return `'parents_changed'`: with the module default
`DEBUG = True`, the debug print at depman.py:429 evaluates
`': _check_state: '. list_parents_now[i][0]`, an attribute access on a
string literal, and raises `AttributeError` before `return_flag` is set.
The other five states behave as the claim says. -/
theorem c1_parents_changed_debug_crash :
    (c1Env.parents ['n']).all c1Env.updated = true ∧
      _check_state c1Env ['n'] = .error .debugPrint := by
  decide

/-- C9 (code bug evaluation): constructing a node with a supplied id `'x'`
leaves the `nid` attribute unset and the counter untouched — `__init__`
(depman.py:195-198) has no `else` branch, so `self.nid = nid` never
happens and any later use of the id (`__str__`, `__key`, `hash()`,
`_update`) raises `AttributeError` — while the claim (and the
constructor's docstring, "nid is the node id") says the node's id equals
the supplied identifier.  The auto-generated path behaves as claimed:
with counter 0 the id is `'0'` and the counter becomes 1, with counter 12
the id is `'12'` and the counter becomes 13. -/
theorem c9_supplied_nid_never_assigned :
    nodeInitNid 0 (some ['x']) = (none, 0) ∧
      nodeInitNid 0 none = (some ['0'], 1) ∧
      nodeInitNid 12 none = (some ['1', '2'], 13) := by
  decide

/-- C10: `_traverse` applied to a single node and to the singleton list of
that node are the same computation for every graph and every fuel: the
`isinstance` normalization (depman.py:117-118) turns the single node into
`[node]` before the loop runs.  `update` (depman.py:97-108) consumes its
`nodes` argument only through `_traverse(nodes)`, so `update` on a single
node and on the singleton list behave identically as well. -/
theorem c10_single_equals_singleton (parents : Str → List Str) (n : Str) (fuel : Nat) :
    _traverse parents (Sum.inl n) fuel = _traverse parents (Sum.inr [n]) fuel := rfl

theorem parentsReady_iff (g : Sys) (s : RState) (n : Str) :
    parentsReady g s n = true ↔ ∀ p ∈ g.parents n, p ∈ s.updated := by
  simp [parentsReady, List.all_eq_true]

theorem parentsReady_mono (g : Sys) (s s' : RState) (n : Str)
    (hsub : ∀ p, p ∈ s.updated → p ∈ s'.updated)
    (h : parentsReady g s n = true) : parentsReady g s' n = true := by
  rw [parentsReady_iff] at h ⊢
  exact fun p hp => hsub p (h p hp)

theorem _check_state_envOf (g : Sys) (s : RState) (n : Str) :
    _check_state (envOf g s) n =
      if !(parentsReady g s n) then .error .precondition
      else if (tblGet s.table n).isNone then .ok .new
      else
        match _read_hashes s.table n with
        | .error _ => .error .store
        | .ok none => .ok .new
        | .ok (some (my_hash, prev)) => classifyStored (envOf g s) n my_hash prev :=
  rfl

theorem _check_state_congr (g : Sys) (s s' : RState) (n : Str)
    (hp : parentsReady g s n = parentsReady g s' n)
    (ht : tblGet s.table n = tblGet s'.table n) :
    _check_state (envOf g s) n = _check_state (envOf g s') n := by
  have hr : _read_hashes s.table n = _read_hashes s'.table n := by
    unfold _read_hashes
    rw [ht]
  rw [_check_state_envOf g s n, _check_state_envOf g s' n, hp, ht, hr]
  rfl

theorem _update_ok_iff (g : Sys) (s s' : RState) (n : Str) :
    _update g s n = .ok s' ↔ parentsReady g s n = true ∧ s' = commitState g s n := by
  unfold _update
  cases hpr : parentsReady g s n
  · simp
  · simp [eq_comm]

theorem _trigger_update_not_ready (g : Sys) (s : RState) (n : Str)
    (hpr : parentsReady g s n = false) : _trigger_update g s n = .ok s := by
  unfold _trigger_update
  rw [if_pos (by simp [hpr])]

theorem _trigger_update_check_err (g : Sys) (s : RState) (n : Str) (e : CheckErr)
    (hpr : parentsReady g s n = true)
    (hcs : _check_state (envOf g s) n = .error e) :
    _trigger_update g s n = .error (.check e) := by
  unfold _trigger_update
  rw [if_neg (by simp [hpr]), hcs]

theorem _trigger_update_eq_branch (g : Sys) (s : RState) (n : Str) (st : NState)
    (hpr : parentsReady g s n = true)
    (hcs : _check_state (envOf g s) n = .ok st) :
    _trigger_update g s n = triggerBranch g s n st := by
  unfold _trigger_update
  rw [if_neg (by simp [hpr]), hcs]

theorem _trigger_update_ok_cases (g : Sys) (s s' : RState) (n : Str)
    (h : _trigger_update g s n = .ok s') :
    (parentsReady g s n = false ∧ s' = s) ∨
    (parentsReady g s n = true ∧ _check_state (envOf g s) n = .ok NState.ok ∧
      _update g s n = .ok s') ∨
    (parentsReady g s n = true ∧
      (∃ st, _check_state (envOf g s) n = .ok st ∧ st ≠ NState.ok) ∧
      n ∉ s.delivered ∧ s' = submitState s n) ∨
    (parentsReady g s n = true ∧
      (∃ st, _check_state (envOf g s) n = .ok st ∧ st ≠ NState.ok) ∧
      n ∈ s.delivered ∧ n ∉ s.failed ∧ s' = s) := by
  cases hpr : parentsReady g s n with
  | false =>
    rw [_trigger_update_not_ready g s n hpr] at h
    exact Or.inl ⟨rfl, (Except.ok.inj h).symm⟩
  | true =>
    cases hcs : _check_state (envOf g s) n with
    | error e =>
      rw [_trigger_update_check_err g s n e hpr hcs] at h
      exact absurd h (by simp)
    | ok st =>
      rw [_trigger_update_eq_branch g s n st hpr hcs] at h
      unfold triggerBranch at h
      by_cases hst : st = NState.ok
      · rw [if_pos hst] at h
        exact Or.inr (Or.inl ⟨rfl, by rw [hst], h⟩)
      · rw [if_neg hst] at h
        by_cases hdel : n ∈ s.delivered
        · rw [if_neg (by simp [hdel])] at h
          by_cases hfail : n ∈ s.failed
          · rw [if_pos hfail] at h
            exact absurd h (by simp)
          · rw [if_neg hfail] at h
            exact Or.inr (Or.inr (Or.inr
              ⟨rfl, ⟨st, rfl, hst⟩, hdel, hfail, (Except.ok.inj h).symm⟩))
        · rw [if_pos hdel] at h
          exact Or.inr (Or.inr (Or.inl
            ⟨rfl, ⟨st, rfl, hst⟩, hdel, (Except.ok.inj h).symm⟩))

theorem runInv_commit (g : Sys) (t0 : Table) (s : RState) (n : Str)
    (hi : RunInv g t0 s) (hpr : parentsReady g s n = true)
    (hnp : n ∉ s.pending) (hnf : n ∉ s.failed) :
    RunInv g t0 (commitState g s n) := by
  have hparents : ∀ p ∈ g.parents n, p ∈ s.updated := (parentsReady_iff g s n).1 hpr
  constructor
  · intro m
    show m ∈ n :: s.updated ↔ m ∈ n :: s.writes
    rw [List.mem_cons, List.mem_cons]
    exact or_congr Iff.rfl (hi.up_writes m)
  · intro m hm p hp
    exact List.mem_cons_of_mem n (hi.deliv_parents m hm p hp)
  · exact hi.subs_count
  · exact hi.subs_deliv
  · exact hi.pending_deliv
  · exact hi.pending_nodup
  · intro m hm hmem
    rcases List.mem_cons.1 hmem with rfl | hm2
    · exact hnp hm
    · exact hi.pending_not_up m hm hm2
  · exact hi.failed_deliv
  · exact hi.failed_not_pending
  · intro m hm hmem
    rcases List.mem_cons.1 hmem with rfl | hm2
    · exact hnf hm
    · exact hi.failed_not_up m hm hm2
  · intro m hmd hmw
    have hmn : m ≠ n := fun e => hmw (e ▸ List.mem_cons_self n s.writes)
    have hmw0 : m ∉ s.writes := fun hw => hmw (List.mem_cons_of_mem n hw)
    have hold := hi.deliv_check m hmd hmw0
    have hpm : parentsReady g s m = true :=
      (parentsReady_iff g s m).2 (hi.deliv_parents m hmd)
    have hpm' : parentsReady g (commitState g s n) m = true :=
      parentsReady_mono g s _ m (fun p hp => List.mem_cons_of_mem n hp) hpm
    have ht : tblGet s.table m = tblGet (commitState g s n).table m :=
      (tblGet_write_other s.table n
        (serializeRecord (g.hash n) ((g.parents n).map (fun x => (x, g.hash x))))
        m (Ne.symm hmn)).symm
    rw [← _check_state_congr g s (commitState g s n) m (by rw [hpm, hpm']) ht]
    exact hold
  · intro m hm p hp
    rcases List.mem_cons.1 hm with rfl | hm2
    · exact List.mem_cons_of_mem _ (hparents p hp)
    · exact List.mem_cons_of_mem n (hi.up_parents m hm2 p hp)
  · intro m hmw
    have hmn : m ≠ n := fun e => hmw (e ▸ List.mem_cons_self n s.writes)
    have hmw0 : m ∉ s.writes := fun hw => hmw (List.mem_cons_of_mem n hw)
    have ht : tblGet (commitState g s n).table m = tblGet s.table m :=
      tblGet_write_other s.table n
        (serializeRecord (g.hash n) ((g.parents n).map (fun x => (x, g.hash x))))
        m (Ne.symm hmn)
    rw [ht]
    exact hi.table_old m hmw0

theorem runInv_erase_pending (g : Sys) (t0 : Table) (s : RState) (n : Str)
    (hi : RunInv g t0 s) :
    RunInv g t0 { s with pending := s.pending.erase n } := by
  constructor
  · exact hi.up_writes
  · exact hi.deliv_parents
  · exact hi.subs_count
  · exact hi.subs_deliv
  · exact fun m hm => hi.pending_deliv m (List.mem_of_mem_erase hm)
  · exact List.Nodup.erase n hi.pending_nodup
  · exact fun m hm => hi.pending_not_up m (List.mem_of_mem_erase hm)
  · exact hi.failed_deliv
  · exact fun m hm hm2 => hi.failed_not_pending m hm (List.mem_of_mem_erase hm2)
  · exact hi.failed_not_up
  · exact hi.deliv_check
  · exact hi.up_parents
  · exact hi.table_old

theorem runInv_completeFail (g : Sys) (t0 : Table) (s : RState) (n : Str)
    (hi : RunInv g t0 s) (hp : n ∈ s.pending) :
    RunInv g t0 { s with pending := s.pending.erase n, failed := n :: s.failed } := by
  constructor
  · exact hi.up_writes
  · exact hi.deliv_parents
  · exact hi.subs_count
  · exact hi.subs_deliv
  · exact fun m hm => hi.pending_deliv m (List.mem_of_mem_erase hm)
  · exact List.Nodup.erase n hi.pending_nodup
  · exact fun m hm => hi.pending_not_up m (List.mem_of_mem_erase hm)
  · intro m hm
    rcases List.mem_cons.1 hm with rfl | hm2
    · exact hi.pending_deliv m hp
    · exact hi.failed_deliv m hm2
  · intro m hm hmem
    rcases List.mem_cons.1 hm with rfl | hm2
    · exact List.Nodup.not_mem_erase hi.pending_nodup hmem
    · exact hi.failed_not_pending m hm2 (List.mem_of_mem_erase hmem)
  · intro m hm
    rcases List.mem_cons.1 hm with rfl | hm2
    · exact hi.pending_not_up m hp
    · exact hi.failed_not_up m hm2
  · exact hi.deliv_check
  · exact hi.up_parents
  · exact hi.table_old

theorem runInv_submit (g : Sys) (t0 : Table) (s : RState) (n : Str)
    (hi : RunInv g t0 s) (hpr : parentsReady g s n = true)
    (hnd : n ∉ s.delivered) (hnup : n ∉ s.updated)
    (hcs : _check_state (envOf g s) n ≠ .ok NState.ok) :
    RunInv g t0 (submitState s n) := by
  have hnsubs : n ∉ s.subs := fun h => hnd ((hi.subs_deliv n).1 h)
  have hnpend : n ∉ s.pending := fun h => hnd (hi.pending_deliv n h)
  have hnfail : n ∉ s.failed := fun h => hnd (hi.failed_deliv n h)
  constructor
  · exact hi.up_writes
  · intro m hm p hp
    rcases List.mem_cons.1 hm with rfl | hm2
    · exact (parentsReady_iff g s m).1 hpr p hp
    · exact hi.deliv_parents m hm2 p hp
  · intro m
    show (s.subs ++ [n]).count m ≤ 1
    rw [List.count_append]
    by_cases hmn : m = n
    · subst hmn
      rw [List.count_eq_zero.2 hnsubs]
      simp
    · have h1 : List.count m [n] = 0 :=
        List.count_eq_zero.2 (by simp [List.mem_singleton, hmn])
      rw [h1]
      simpa using hi.subs_count m
  · intro m
    show m ∈ s.subs ++ [n] ↔ m ∈ n :: s.delivered
    rw [List.mem_append, List.mem_singleton, List.mem_cons]
    constructor
    · rintro (h | rfl)
      · exact Or.inr ((hi.subs_deliv m).1 h)
      · exact Or.inl rfl
    · rintro (rfl | h)
      · exact Or.inr rfl
      · exact Or.inl ((hi.subs_deliv m).2 h)
  · intro m hm
    rcases List.mem_cons.1 hm with rfl | hm2
    · exact List.mem_cons_self m s.delivered
    · exact List.mem_cons_of_mem n (hi.pending_deliv m hm2)
  · exact List.nodup_cons.2 ⟨hnpend, hi.pending_nodup⟩
  · intro m hm
    rcases List.mem_cons.1 hm with rfl | hm2
    · exact hnup
    · exact hi.pending_not_up m hm2
  · exact fun m hm => List.mem_cons_of_mem n (hi.failed_deliv m hm)
  · intro m hm hmem
    rcases List.mem_cons.1 hmem with rfl | hm2
    · exact hnfail hm
    · exact hi.failed_not_pending m hm hm2
  · exact hi.failed_not_up
  · intro m hm hmw
    rcases List.mem_cons.1 hm with rfl | hm2
    · exact hcs
    · exact hi.deliv_check m hm2 hmw
  · exact hi.up_parents
  · exact hi.table_old

theorem runInv_init (g : Sys) (t0 : Table) : RunInv g t0 (initState t0) := by
  refine ⟨?_, ?_, ?_, ?_, ?_, ?_, ?_, ?_, ?_, ?_, ?_, ?_, ?_⟩ <;>
    simp [initState]

theorem runInv_step (g : Sys) (t0 : Table) (s s' : RState)
    (hi : RunInv g t0 s) (hs : Step g s s') : RunInv g t0 s' := by
  cases hs with
  | trigger s' n huniv hnup htr =>
    rcases _trigger_update_ok_cases g s s' n htr with
      ⟨_, rfl⟩ | ⟨hpr, hcs, hup⟩ | ⟨hpr, ⟨st, hcs, hst⟩, hnd, rfl⟩ |
      ⟨_, _, _, _, rfl⟩
    · exact hi
    · rcases (_update_ok_iff g s s' n).1 hup with ⟨_, rfl⟩
      have hnp : n ∉ s.pending := by
        intro hp
        have hnw : n ∉ s.writes :=
          fun hw => (hi.pending_not_up n hp) ((hi.up_writes n).2 hw)
        exact hi.deliv_check n (hi.pending_deliv n hp) hnw hcs
      have hnf : n ∉ s.failed := by
        intro hf
        have hnw : n ∉ s.writes :=
          fun hw => (hi.failed_not_up n hf) ((hi.up_writes n).2 hw)
        exact hi.deliv_check n (hi.failed_deliv n hf) hnw hcs
      exact runInv_commit g t0 s n hi hpr hnp hnf
    · have hne : _check_state (envOf g s) n ≠ .ok NState.ok :=
        fun h => hst (Except.ok.inj (hcs.symm.trans h))
      exact runInv_submit g t0 s n hi hpr hnd hnup hne
    · exact hi
  | completeOk s' n hp hup =>
    rcases (_update_ok_iff g _ s' n).1 hup with ⟨hpr, rfl⟩
    have hi1 := runInv_erase_pending g t0 s n hi
    have hnp : n ∉ s.pending.erase n := List.Nodup.not_mem_erase hi.pending_nodup
    have hnf : n ∉ s.failed := fun hf => hi.failed_not_pending n hf hp
    exact runInv_commit g t0 _ n hi1 hpr hnp hnf
  | completeFail n hp =>
    exact runInv_completeFail g t0 s n hi hp

theorem runInv_reachable (g : Sys) (t0 : Table) (s : RState)
    (h : ReachableRun g t0 s) : RunInv g t0 s := by
  induction h with
  | refl => exact runInv_init g t0
  | tail h1 h2 ih => exact runInv_step g t0 _ _ ih h2

/-- C4: in every execution, a node's payload is submitted to the pool only
when every one of its parents has committed — at the submitting step each
parent's `_update_done` flag is set and the parent's record has been
written (depman.py:287 guards the submission, depman.py:356-362 writes the
record before setting the flag) — and, in every reachable state, the
`_update_done` flag of any node is set only if that node's record has been
written to the store. -/
theorem c4_submit_needs_committed_parents (g : Sys) (t0 : Table)
    (s s' : RState) (n : Str) (hr : ReachableRun g t0 s) (hs : Step g s s')
    (hnew : n ∉ s.subs) (hnew' : n ∈ s'.subs) :
    (∀ p ∈ g.parents n, p ∈ s.updated ∧ p ∈ s.writes) ∧
    (∀ m, m ∈ s.updated → m ∈ s.writes) := by
  have hi := runInv_reachable g t0 s hr
  refine ⟨?_, fun m hm => (hi.up_writes m).1 hm⟩
  cases hs with
  | trigger s2 n' huniv hnup htr =>
    rcases _trigger_update_ok_cases g s s' n' htr with
      ⟨_, rfl⟩ | ⟨hpr, hcs, hup⟩ | ⟨hpr, hex, hnd, rfl⟩ | ⟨_, _, _, _, rfl⟩
    · exact absurd hnew' hnew
    · rcases (_update_ok_iff g s s' n').1 hup with ⟨_, rfl⟩
      exact absurd hnew' hnew
    · have hnn : n = n' := by
        rcases List.mem_append.1 hnew' with h | h
        · exact absurd h hnew
        · simpa using h
      subst hnn
      intro p hp
      have hup : p ∈ s.updated := (parentsReady_iff g s n).1 hpr p hp
      exact ⟨hup, (hi.up_writes p).1 hup⟩
    · exact absurd hnew' hnew
  | completeOk s2 n' hp hup =>
    rcases (_update_ok_iff g _ s' n').1 hup with ⟨_, rfl⟩
    exact absurd hnew' hnew
  | completeFail n' hp =>
    exact absurd hnew' hnew

/-- C5: each node's payload is submitted to the pool at most once per
update run — the submission log of any reachable state counts any node at
most once, because the first submission sets `_payload_delivered`
(depman.py:316) and every other path through `_trigger_update` leaves the
log unchanged, even while the pending result is not yet complete. -/
theorem c5_dispatch_at_most_once (g : Sys) (t0 : Table) (s : RState)
    (hr : ReachableRun g t0 s) (n : Str) : s.subs.count n ≤ 1 :=
  (runInv_reachable g t0 s hr).subs_count n

/-- C7: once a node's payload has completed reporting failure, in every
subsequent reachable state: the next `_trigger_update` on the node raises
(`RuntimeError('Failed to execute payload')`, depman.py:319-321, aborting
the `update` loop that called it), the node's `_update_done` flag is still
unset, no record for the node has been written to the store during this
run, and no descendant of the node is marked updated. -/
theorem c7_failure_fatal (g : Sys) (t0 : Table) (s : RState) (n : Str)
    (hr : ReachableRun g t0 s) (hf : n ∈ s.failed) :
    (∃ e, _trigger_update g s n = .error e) ∧
    n ∉ s.updated ∧ n ∉ s.writes ∧
    (∀ d, Anc g n d → d ∉ s.updated) := by
  have hi := runInv_reachable g t0 s hr
  have hnd : n ∈ s.delivered := hi.failed_deliv n hf
  have hnu : n ∉ s.updated := hi.failed_not_up n hf
  have hnw : n ∉ s.writes := fun hw => hnu ((hi.up_writes n).2 hw)
  have hpr : parentsReady g s n = true :=
    (parentsReady_iff g s n).2 (hi.deliv_parents n hnd)
  have hanc : ∀ a d, Anc g a d → d ∈ s.updated → a ∈ s.updated := by
    intro a d h
    induction h with
    | parent hp => exact fun hdup => hi.up_parents _ hdup _ hp
    | trans h1 h2 ih1 ih2 => exact fun hc => ih1 (ih2 hc)
  refine ⟨?_, hnu, hnw, fun d hd hdup => hnu (hanc n d hd hdup)⟩
  cases hcs : _check_state (envOf g s) n with
  | error e => exact ⟨.check e, _trigger_update_check_err g s n e hpr hcs⟩
  | ok st =>
    have hst : st ≠ NState.ok := by
      intro h
      subst h
      exact hi.deliv_check n hnd hnw hcs
    refine ⟨.payloadFail, ?_⟩
    rw [_trigger_update_eq_branch g s n st hpr hcs]
    unfold triggerBranch
    rw [if_neg hst, if_neg (by simp [hnd]), if_pos hf]

theorem orderLoop_self (l : List (Str × Str)) : orderLoop l l = .ok false := by
  induction l with
  | nil => rfl
  | cons a as ih => simp [orderLoop, ih]

theorem hashLoop_self (l : List (Str × Str)) : hashLoop l l = .ok false := by
  induction l with
  | nil => rfl
  | cons a as ih => simp [hashLoop, ih]

theorem numberFlag_self (l : List (Str × Str)) : numberFlag l l = false := by
  unfold numberFlag
  rw [Bool.or_self, List.any_eq_false]
  intro x hx
  have hel : List.elem x (l.map Prod.fst) = true := List.elem_iff.2 hx
  show ¬(!(List.elem x (l.map Prod.fst))) = true
  rw [hel]
  simp

theorem _check_state_ok_of_record (g : Sys) (s : RState) (n : Str)
    (hpr : parentsReady g s n = true) (hcf : commaFree g n)
    (ht : tblGet s.table n
      = some (serializeRecord (g.hash n)
          ((g.parents n).map (fun x => (x, g.hash x))))) :
    _check_state (envOf g s) n = .ok NState.ok := by
  have hps : ∀ p ∈ (g.parents n).map (fun x => (x, g.hash x)),
      (',' : Char) ∉ p.1 ∧ (',' : Char) ∉ p.2 := by
    intro p hp
    rcases List.mem_map.1 hp with ⟨x, hx, rfl⟩
    exact ⟨(hcf.2 x hx).1, (hcf.2 x hx).2⟩
  have hparse := parseRecord_serializeRecord (g.hash n) _ hcf.1 hps
  have hpre : ((envOf g s).parents n).all (envOf g s).updated = true := hpr
  rw [_check_state_eq_stored (envOf g s) n _ (g.hash n) _ hpre ht hparse]
  unfold classifyStored
  rw [if_neg (fun h => h rfl)]
  rw [show listParentsNow (envOf g s) n
      = (g.parents n).map (fun x => (x, g.hash x)) from rfl]
  rw [numberFlag_self, if_neg (by simp), orderLoop_self, hashLoop_self]

theorem cleanRun_step (g : Sys) (t0 : Table) (s s' : RState)
    (hg : goodTable g t0) (hc : cleanRun g s) (hs : Step g s s') :
    cleanRun g s' := by
  obtain ⟨hsubs, hpend, htbl⟩ := hc
  cases hs with
  | trigger s2 n huniv hnup htr =>
    rcases _trigger_update_ok_cases g s s' n htr with
      ⟨_, rfl⟩ | ⟨hpr, hcs, hup⟩ | ⟨hpr, ⟨st, hcs, hst⟩, hnd, rfl⟩ |
      ⟨_, _, _, _, rfl⟩
    · exact ⟨hsubs, hpend, htbl⟩
    · rcases (_update_ok_iff g s s' n).1 hup with ⟨_, rfl⟩
      refine ⟨hsubs, hpend, ?_⟩
      intro m hm
      by_cases hmn : m = n
      · subst hmn
        exact tblGet_write_self s.table m _
      · exact (tblGet_write_other s.table n _ m (Ne.symm hmn)).trans (htbl m hm)
    · exfalso
      have hok := _check_state_ok_of_record g s n hpr (hg n huniv).1 (htbl n huniv)
      rw [hok] at hcs
      exact hst (Except.ok.inj hcs).symm
    · exact ⟨hsubs, hpend, htbl⟩
  | completeOk s2 n hp hup => exact absurd (hpend ▸ hp) (List.not_mem_nil n)
  | completeFail n hp => exact absurd (hpend ▸ hp) (List.not_mem_nil n)

theorem cleanRun_reachable (g : Sys) (t0 : Table) (s : RState)
    (hg : goodTable g t0) (hr : ReachableRun g t0 s) : cleanRun g s := by
  induction hr with
  | refl => exact ⟨rfl, rfl, fun n hn => (hg n hn).2⟩
  | tail h1 h2 ih => exact cleanRun_step g t0 _ _ hg ih h2

/-- C3: (i) immediately after a successful commit by `_update` — hash and
parent snapshot written to the store — with the node's own hash, parents
list and parents' hashes unchanged (they are constant during the run in
this model) and comma-free, `_check_state` classifies the node as `'ok'`;
(ii) consequently, an `update` run started with every node's record
already matching its current state (the situation after a completed first
run with no external changes) dispatches zero payloads: the submission log
of every reachable state stays empty. -/
theorem c3_commit_ok_and_second_run_no_dispatch :
    (∀ (g : Sys) (s s' : RState) (n : Str), commaFree g n →
      _update g s n = .ok s' → _check_state (envOf g s') n = .ok NState.ok) ∧
    (∀ (g : Sys) (t0 : Table) (s : RState), goodTable g t0 →
      ReachableRun g t0 s → s.subs = []) := by
  constructor
  · intro g s s' n hcf hup
    rcases (_update_ok_iff g s s' n).1 hup with ⟨hpr, rfl⟩
    have hpr' : parentsReady g (commitState g s n) n = true :=
      parentsReady_mono g s _ n (fun p hp => List.mem_cons_of_mem n hp) hpr
    exact _check_state_ok_of_record g (commitState g s n) n hpr' hcf
      (tblGet_write_self s.table n _)
  · intro g t0 s hg hr
    exact (cleanRun_reachable g t0 s hg hr).1

theorem stepW01 : Step gW (initState []) wS1 :=
  Step.trigger (initState []) wS1 ['a'] (by decide) (by decide) (by decide)

theorem stepW12 : Step gW wS1 wS2 :=
  Step.completeOk wS1 wS2 ['a'] (by decide) (by decide)

theorem stepW23 : Step gW wS2 wS3 :=
  Step.trigger wS2 wS3 ['b'] (by decide) (by decide) (by decide)

theorem stepW1f : Step gW wS1 wS1f :=
  Step.completeFail wS1 ['a'] (by decide)

theorem reachW1 : ReachableRun gW [] wS1 :=
  Relation.ReflTransGen.tail Relation.ReflTransGen.refl stepW01

theorem reachW2 : ReachableRun gW [] wS2 :=
  Relation.ReflTransGen.tail reachW1 stepW12

theorem reachW3 : ReachableRun gW [] wS3 :=
  Relation.ReflTransGen.tail reachW2 stepW23

theorem reachW1f : ReachableRun gW [] wS1f :=
  Relation.ReflTransGen.tail reachW1 stepW1f

/-- C4 witness: in the concrete run that submits `b` right after `a`
committed, the parent `a` is updated and written at the submitting step. -/
theorem c4_submit_needs_committed_parents_witness :
    ['a'] ∈ wS2.updated ∧ ['a'] ∈ wS2.writes :=
  (c4_submit_needs_committed_parents gW [] wS2 wS3 ['b'] reachW2 stepW23
    (by decide) (by decide)).1 ['a'] (by decide)

/-- C5 witness: in the concrete three-step run, `b` appears at most once in
the submission log. -/
theorem c5_dispatch_at_most_once_witness : wS3.subs.count ['b'] ≤ 1 :=
  c5_dispatch_at_most_once gW [] wS3 reachW3 ['b']

/-- C7 witness: in the concrete run where `a`'s payload failed, `a` is not
updated, nothing was written for `a`, and the descendant `b` is not
updated. -/
theorem c7_failure_fatal_witness :
    ['a'] ∉ wS1f.updated ∧ ['a'] ∉ wS1f.writes ∧ ['b'] ∉ wS1f.updated := by
  have h := c7_failure_fatal gW [] wS1f ['a'] reachW1f (by decide)
  exact ⟨h.2.1, h.2.2.1, h.2.2.2 ['b'] (Anc.parent (by decide))⟩

theorem stepG1 : Step gW (initState t0G) wG1 :=
  Step.trigger (initState t0G) wG1 ['a'] (by decide) (by decide) (by decide)

/-- C3 witness: committing a concrete node makes `_check_state` return
`'ok'` on it, and a concrete second-run step over a matching store
dispatches nothing. -/
theorem c3_commit_ok_and_second_run_no_dispatch_witness :
    _check_state (envOf gA wA) ['n'] = .ok NState.ok ∧ wG1.subs = [] := by
  have h := c3_commit_ok_and_second_run_no_dispatch
  exact ⟨h.1 gA (initState []) wA ['n'] (by decide) (by decide),
    h.2 gW t0G wG1 (by decide)
      (Relation.ReflTransGen.tail Relation.ReflTransGen.refl stepG1)⟩

/-- C3 counterexample: for a node whose hash contains a comma, a successful
commit by `_update` is followed by `_check_state` raising an `IndexError`
while parsing the node's own freshly written record (the comma shifts the
fields of the flat record format), not returning `'ok'` — so the claim
without the comma-free proviso is false. -/
theorem c3_comma_hash_not_ok :
    _update gC (initState []) ['n'] = .ok (commitState gC (initState []) ['n']) ∧
    _check_state (envOf gC (commitState gC (initState []) ['n'])) ['n']
      = .error .store := by
  decide

theorem wsum_cons (B : Nat) (rank : Str → Nat) (x : Str) (q : List Str) :
    wsum B rank (x :: q) = B ^ rank x + wsum B rank q := by
  simp [wsum]

theorem wsum_append (B : Nat) (rank : Str → Nat) (a b : List Str) :
    wsum B rank (a ++ b) = wsum B rank a + wsum B rank b := by
  simp [wsum]

theorem ReachL_nil (parents : Str → List Str) (n : Str)
    (h : ReachL parents [] n) : False := by
  induction h with
  | base hm => exact absurd hm (List.not_mem_nil _)
  | step h1 h2 ih => exact ih

theorem ReachL_trans_list (parents : Str → List Str) {q1 q2 : List Str}
    (hall : ∀ m ∈ q1, ReachL parents q2 m) {n : Str}
    (h : ReachL parents q1 n) : ReachL parents q2 n := by
  induction h with
  | base hm => exact hall _ hm
  | step h1 h2 ih => exact ReachL.step ih h2

theorem reachL_cons_iff (parents : Str → List Str) (x : Str) (q : List Str)
    (n : Str) :
    ReachL parents (x :: q) n ↔
      (n = x ∨
        ReachL parents (q ++ (parents x).filter (fun y => !(decide (y ∈ q)))) n) := by
  constructor
  · intro h
    induction h with
    | base hm =>
      rcases List.mem_cons.1 hm with h' | hm2
      · exact Or.inl h'
      · exact Or.inr (ReachL.base (List.mem_append_left _ hm2))
    | @step m p h1 h2 ih =>
      rcases ih with h' | hr
      · subst h'
        by_cases hpq : p ∈ q
        · exact Or.inr (ReachL.base (List.mem_append_left _ hpq))
        · exact Or.inr (ReachL.base (List.mem_append_right _
            (List.mem_filter.2 ⟨h2, by simp [hpq]⟩)))
      · exact Or.inr (ReachL.step hr h2)
  · intro h
    rcases h with h' | h
    · exact ReachL.base (h' ▸ List.mem_cons_self _ _)
    · refine ReachL_trans_list parents ?_ h
      intro m hm
      rcases List.mem_append.1 hm with hm1 | hm2
      · exact ReachL.base (List.mem_cons_of_mem _ hm1)
      · exact ReachL.step (ReachL.base (List.mem_cons_self _ _))
          (List.mem_filter.1 hm2).1

theorem precedes_cons {l : List Str} {a b : Str} (y : Str)
    (h : Precedes l a b) : Precedes (y :: l) a b := by
  obtain ⟨l1, l2, rfl, hb⟩ := h
  exact ⟨y :: l1, l2, rfl, hb⟩

theorem precedes_erase {l : List Str} {a b x : Str}
    (h : Precedes l a b) (hax : a ≠ x) (hbx : b ≠ x) :
    Precedes (l.erase x) a b := by
  obtain ⟨l1, l2, rfl, hb⟩ := h
  by_cases hx : x ∈ l1
  · rw [List.erase_append_left _ hx]
    exact ⟨l1.erase x, l2, rfl, hb⟩
  · rw [List.erase_append_right _ hx,
        List.erase_cons_tail (by simpa using hax)]
    exact ⟨l1, l2.erase x, rfl, (List.mem_erase_of_ne hbx).2 hb⟩

theorem precedes_head {l : List Str} {a b : Str} (h : b ∈ l) :
    Precedes (a :: l) a b := ⟨[], l, rfl, h⟩

theorem travLoop_nil_spec (parents : Str → List Str) (fuel : Nat)
    (trv : List Str) (hnd : trv.Nodup)
    (hinv : ∀ n ∈ trv, ∀ p ∈ parents n, p ∈ ([] : List Str) ∨ Precedes trv p n) :
    ∃ r, travLoop parents fuel [] trv = some r ∧ r.Nodup ∧
      (∀ n, n ∈ r ↔ (ReachL parents [] n ∨ n ∈ trv)) ∧
      (∀ n ∈ r, ∀ p ∈ parents n, Precedes r p n) := by
  have he : travLoop parents fuel [] trv = some trv := by cases fuel <;> rfl
  refine ⟨trv, he, hnd, ?_, ?_⟩
  · intro n
    constructor
    · exact fun hn => Or.inr hn
    · rintro (h | hn)
      · exact absurd h (ReachL_nil parents n)
      · exact hn
  · intro n hn p hp
    rcases hinv n hn p hp with h | h
    · exact absurd h (List.not_mem_nil p)
    · exact h

theorem travLoop_spec (parents : Str → List Str) (rank : Str → Nat) (B : Nat)
    (hB : 2 ≤ B) (hdeg : ∀ x, (parents x).length + 1 ≤ B)
    (hrank : ∀ x, ∀ p ∈ parents x, rank p < rank x) :
    ∀ (fuel : Nat) (q trv : List Str),
      wsum B rank q ≤ fuel → trv.Nodup →
      (∀ n ∈ trv, ∀ p ∈ parents n, p ∈ q ∨ Precedes trv p n) →
      ∃ r, travLoop parents fuel q trv = some r ∧ r.Nodup ∧
        (∀ n, n ∈ r ↔ (ReachL parents q n ∨ n ∈ trv)) ∧
        (∀ n ∈ r, ∀ p ∈ parents n, Precedes r p n) := by
  intro fuel
  induction fuel with
  | zero =>
    intro q trv hw hnd hinv
    cases q with
    | nil => exact travLoop_nil_spec parents 0 trv hnd hinv
    | cons x q' =>
      exfalso
      have h1 : 0 < B ^ rank x := pow_pos (by omega : 0 < B) (rank x)
      have h2 : wsum B rank (x :: q') = B ^ rank x + wsum B rank q' :=
        wsum_cons B rank x q'
      omega
  | succ fuel ih =>
    intro q trv hw hnd hinv
    cases q with
    | nil => exact travLoop_nil_spec parents (fuel + 1) trv hnd hinv
    | cons x q' =>
      have hmeas : wsum B rank
          (q' ++ (parents x).filter (fun y => !(decide (y ∈ q')))) ≤ fuel := by
        rw [wsum_append]
        rw [wsum_cons] at hw
        rcases Nat.eq_zero_or_pos (rank x) with hrx | hrx
        · have hpe : parents x = [] := by
            rw [List.eq_nil_iff_forall_not_mem]
            intro p hp
            have := hrank x p hp
            omega
          rw [hpe]
          rw [hrx] at hw
          simp only [pow_zero] at hw
          have hz : wsum B rank
              (List.filter (fun y => !(decide (y ∈ q'))) []) = 0 := rfl
          rw [hz]
          omega
        · obtain ⟨rx, hrx'⟩ : ∃ rx, rank x = rx + 1 := ⟨rank x - 1, by omega⟩
          have hP1 : 1 ≤ B ^ rx := Nat.one_le_pow _ _ (by omega)
          have helem : ∀ v ∈ ((parents x).filter
              (fun y => !(decide (y ∈ q')))).map (fun y => B ^ rank y),
              v ≤ B ^ rx := by
            intro v hv
            rcases List.mem_map.1 hv with ⟨y, hy, rfl⟩
            have hymem : y ∈ parents x := (List.mem_filter.1 hy).1
            have hlt : rank y < rank x := hrank x y hymem
            exact Nat.pow_le_pow_right (by omega) (by omega)
          have hsum := List.sum_le_card_nsmul _ _ helem
          have hlen : ((parents x).filter
              (fun y => !(decide (y ∈ q')))).length ≤ B - 1 := by
            have h1 := List.length_filter_le (fun y => !(decide (y ∈ q'))) (parents x)
            have h2 := hdeg x
            omega
          have hflt : wsum B rank ((parents x).filter
              (fun y => !(decide (y ∈ q')))) ≤ B ^ rx * (B - 1) := by
            have h3 : wsum B rank ((parents x).filter
                (fun y => !(decide (y ∈ q'))))
                ≤ ((parents x).filter (fun y => !(decide (y ∈ q')))).length
                  * B ^ rx := by
              simpa [wsum, smul_eq_mul] using hsum
            calc wsum B rank ((parents x).filter (fun y => !(decide (y ∈ q'))))
                ≤ ((parents x).filter (fun y => !(decide (y ∈ q')))).length
                  * B ^ rx := h3
              _ ≤ (B - 1) * B ^ rx := Nat.mul_le_mul_right _ hlen
              _ = B ^ rx * (B - 1) := Nat.mul_comm _ _
          have e1 : B ^ rx * B = B ^ rx * (B - 1) + B ^ rx := by
            have hb1 : B - 1 + 1 = B := by omega
            calc B ^ rx * B = B ^ rx * ((B - 1) + 1) := by rw [hb1]
              _ = B ^ rx * (B - 1) + B ^ rx := by ring
          rw [hrx', pow_succ, e1] at hw
          omega
      have hnd2 : (x :: trv.erase x).Nodup :=
        List.nodup_cons.2 ⟨List.Nodup.not_mem_erase hnd, List.Nodup.erase x hnd⟩
      have hinv2 : ∀ n ∈ x :: trv.erase x, ∀ p ∈ parents n,
          p ∈ q' ++ (parents x).filter (fun y => !(decide (y ∈ q'))) ∨
          Precedes (x :: trv.erase x) p n := by
        intro n hn p hp
        rcases List.mem_cons.1 hn with hnx | hn2
        · subst hnx
          by_cases hpq : p ∈ q'
          · exact Or.inl (List.mem_append_left _ hpq)
          · exact Or.inl (List.mem_append_right _
              (List.mem_filter.2 ⟨hp, by simp [hpq]⟩))
        · have hnx : n ≠ x := fun e => (List.Nodup.not_mem_erase hnd) (e ▸ hn2)
          have hntrv : n ∈ trv := List.mem_of_mem_erase hn2
          rcases hinv n hntrv p hp with hpq | hprec
          · rcases List.mem_cons.1 hpq with hpx | hpq'
            · exact Or.inr (by rw [hpx]; exact precedes_head hn2)
            · exact Or.inl (List.mem_append_left _ hpq')
          · by_cases hpx : p = x
            · exact Or.inr (by rw [hpx]; exact precedes_head hn2)
            · exact Or.inr (precedes_cons x (precedes_erase hprec hpx hnx))
      obtain ⟨r, hr, hrnd, hrmem, hrord⟩ :=
        ih (q' ++ (parents x).filter (fun y => !(decide (y ∈ q'))))
          (x :: trv.erase x) hmeas hnd2 hinv2
      refine ⟨r, hr, hrnd, ?_, hrord⟩
      intro n
      rw [hrmem n]
      have hiff := reachL_cons_iff parents x q' n
      constructor
      · rintro (h | h)
        · exact Or.inl (hiff.2 (Or.inr h))
        · rcases List.mem_cons.1 h with h' | h'
          · exact Or.inl (hiff.2 (Or.inl h'))
          · exact Or.inr (List.mem_of_mem_erase h')
      · rintro (h | h)
        · rcases hiff.1 h with h' | h'
          · exact Or.inr (List.mem_cons.2 (Or.inl h'))
          · exact Or.inl h'
        · by_cases hnx : n = x
          · exact Or.inr (List.mem_cons.2 (Or.inl hnx))
          · exact Or.inr (List.mem_cons.2 (Or.inr ((List.mem_erase_of_ne hnx).2 h)))

/-- C2: for every finite acyclic graph — acyclicity and finiteness given by
a rank function that strictly decreases from a node to its parents and a
bound `B` exceeding every parents-list length (such `rank` and `B` exist
exactly when the graph is finite and acyclic) — and every requested node or
list of nodes, `_traverse` terminates (fuel `wsum B rank` of the seed
queue suffices for the `while q:` loop) and returns a list that contains
each node transitively reachable from the inputs via the parent relation
exactly once (no duplicates), and in which every parent of every listed
node appears strictly before it. -/
theorem c2_traverse_topological (parents : Str → List Str) (rank : Str → Nat)
    (B : Nat) (hB : 2 ≤ B) (hdeg : ∀ x, (parents x).length + 1 ≤ B)
    (hrank : ∀ x, ∀ p ∈ parents x, rank p < rank x)
    (nodes : Sum Str (List Str)) :
    ∃ trv, _traverse parents nodes (wsum B rank (toNodeList nodes)) = some trv ∧
      trv.Nodup ∧
      (∀ n, n ∈ trv ↔ ReachL parents (toNodeList nodes) n) ∧
      (∀ n ∈ trv, ∀ p ∈ parents n, Precedes trv p n) := by
  obtain ⟨r, hr, hnd, hmem, hord⟩ :=
    travLoop_spec parents rank B hB hdeg hrank
      (wsum B rank (toNodeList nodes)) (toNodeList nodes) [] (le_refl _)
      List.nodup_nil (by intro n hn; exact absurd hn (List.not_mem_nil n))
  refine ⟨r, hr, hnd, ?_, hord⟩
  intro n
  rw [hmem n]
  simp

theorem rankW_parents : ∀ x, ∀ p ∈ gW.parents x, rankW p < rankW x := by
  intro x p hp
  by_cases hx : x = ['b']
  · subst hx
    simp [gW] at hp
    subst hp
    decide
  · simp [gW, hx] at hp

theorem degW : ∀ x, (gW.parents x).length + 1 ≤ 2 := by
  intro x
  by_cases hx : x = ['b']
  · subst hx
    decide
  · simp only [gW]
    rw [if_neg hx]
    decide

/-- C2 witness: on the concrete two-node graph, `_traverse` with the
computed fuel succeeds. -/
theorem c2_traverse_topological_witness :
    _traverse gW.parents (Sum.inr [['b']]) (wsum 2 rankW [['b']]) ≠ none := by
  obtain ⟨r, hr, -, -, -⟩ :=
    c2_traverse_topological gW.parents rankW 2 (by omega) degW rankW_parents
      (Sum.inr [['b']])
  have hr' : _traverse gW.parents (Sum.inr [['b']]) (wsum 2 rankW [['b']])
      = some r := hr
  rw [hr']
  simp
